import Mathlib

/-!
Shallow embedding of the location-feature pipeline of this repository
(`location/features.py`, with the legacy near-duplicate in
`location/location_features.py`), together with proofs about the
waiting-time segmentation and the derived feature calculators.

Modelling conventions:
* timestamps are rationals measured in seconds;
* a pandas `Timedelta`'s `.seconds` attribute (the seconds component of
  the normalised timedelta, not `total_seconds()`) is modelled by
  `tdSeconds`;
* a missing cluster id (`NaN` in the cluster column) is `none`;
* a Python `dict` is modelled as an association list;
* a raised Python exception (`KeyError`, `ValueError` from `math.log`,
  `ZeroDivisionError`) is modelled as `Except.error`.
-/

namespace LocRepo

variable {α : Type*} [DecidableEq α]

/-- Seconds component of a pandas `Timedelta` of `q` seconds: whole
seconds, modulo one day (86400 s).  This models `.seconds`, which drops
the `days` component of the normalised timedelta. -/
def tdSeconds (q : ℚ) : ℕ := (⌊q⌋ % 86400).toNat

/-- Per-row time weight `td` computed at the top of `wait_time`: the
vectorised centred difference
`((time.shift(-1) - time) + (time - time.shift())) / 2`, with row `0`
overridden to `(t[1] - t[0]) / 2` and row `l-1` overridden to
`(t[l-1] - t[l-2]) / 2`. -/
def tdAt (ts : List ℚ) (i : ℕ) : ℚ :=
  if i = 0 then (ts.getD 1 0 - ts.getD 0 0) / 2
  else if i = ts.length - 1 then
    (ts.getD (ts.length - 1) 0 - ts.getD (ts.length - 2) 0) / 2
  else ((ts.getD (i + 1) 0 - ts.getD i 0) + (ts.getD i 0 - ts.getD (i - 1) 0)) / 2

/-- The full `td` column of `wait_time`. -/
def tdList (ts : List ℚ) : List ℚ := (List.range ts.length).map (tdAt ts)

/-- The working frame of `wait_time`: each row keeps its cluster id and
its time weight `td`. -/
def mkRows (data : List (ℚ × Option α)) : List (Option α × ℚ) :=
  (data.map Prod.snd).zip (tdList (data.map Prod.fst))

/-- The scan loop of `wait_time` (`for p in range(i + 1, l)` plus the
final `if len(curr_c) > 0` block).  The state is the open run: its
cluster id and the accumulated sum of the `td` weights of its members
(`curr_c`), or `none` when no run is open. -/
def segLoop : Option (α × ℚ) → List (Option α × ℚ) → List ℕ
  | none, [] => []
  | some st, [] => [tdSeconds st.2]
  | none, (none, _) :: rest => segLoop none rest
  | some st, (none, _) :: rest => tdSeconds st.2 :: segLoop none rest
  | none, (some c, td) :: rest => segLoop (some (c, td)) rest
  | some st, (some c, td) :: rest =>
      if st.1 = c then segLoop (some (st.1, st.2 + td)) rest
      else tdSeconds st.2 :: segLoop (some (c, td)) rest

/-- The waiting-time list of `wait_time`: skip the leading absent
entries (`while i < len(data) and pd.isnull(...)`), seed the run with
the first labelled row (`curr_c = [i]`), then run the scan loop.  When
every row is absent the source still seeds `curr_c = [i]` with
`i = len(data)`, so the final block sums an empty selection and appends
its `.seconds`, which is `0`. -/
def waittimeList : List (Option α × ℚ) → List ℕ
  | [] => [tdSeconds 0]
  | (none, _) :: rest => waittimeList rest
  | (some c, td) :: rest => segLoop (some (c, td)) rest

/-- The per-cluster dwell table of `wait_time`: `data.groupby(cluster)`
drops the absent rows and produces one entry per distinct cluster id,
whose value is the `.seconds` of the sum of that cluster's `td`
weights over the whole frame. -/
def cluster_wt (rows : List (Option α × ℚ)) : List (α × ℕ) :=
  ((rows.filterMap Prod.fst).dedup).map fun c =>
    (c, tdSeconds (((rows.filter fun row => row.1 = some c).map Prod.snd).sum))

/-- The function `wait_time(data, cluster_c, time_c)` of
`location/features.py` (identical in `location/location_features.py`):
returns the waiting-time list and the per-cluster dwell table. -/
def wait_time (data : List (ℚ × Option α)) : List ℕ × List (α × ℕ) :=
  if data.length ≤ 1 then ([], [])
  else (waittimeList (mkRows data), cluster_wt (mkRows data))

/-- Visit runs of a row sequence: maximal contiguous blocks of rows
sharing the same non-absent cluster id, bounded by a cluster change, an
absent row, or the sequence boundary.  Each run is returned as its
cluster id together with the list of its rows' `td` weights, in order.
This is the specification-side notion the claims are stated with. -/
def runsOf : List (Option α × ℚ) → List (α × List ℚ)
  | [] => []
  | (none, _) :: rest => runsOf rest
  | [(some c, td)] => [(c, [td])]
  | (some c, td) :: (none, td') :: rest => (c, [td]) :: runsOf ((none, td') :: rest)
  | (some c, td) :: (some c', td') :: rest =>
      if c = c' then
        match runsOf ((some c', td') :: rest) with
        | (_, tds) :: rs => (c, td :: tds) :: rs
        | [] => [(c, [td])]
      else (c, [td]) :: runsOf ((some c', td') :: rest)

/-- Rows contributed by the loop state: the open run is summarised by a
single row carrying its cluster and its accumulated weight. -/
def stRows : Option (α × ℚ) → List (Option α × ℚ)
  | none => []
  | some p => [(some p.1, p.2)]

theorem runsOf_cons_some (c : α) (rest : List (Option α × ℚ)) :
    ∃ T R, ∀ x : ℚ, runsOf ((some c, x) :: rest) = (c, x :: T) :: R := by
  induction rest generalizing c with
  | nil => exact ⟨[], [], fun x => rfl⟩
  | cons head tail ih =>
    obtain ⟨copt, td'⟩ := head
    cases copt with
    | none => exact ⟨[], runsOf ((none, td') :: tail), fun x => rfl⟩
    | some c' =>
      by_cases hc : c = c'
      · subst hc
        obtain ⟨T, R, h⟩ := ih c
        exact ⟨td' :: T, R, fun x => by simp [runsOf, h td']⟩
      · exact ⟨[], runsOf ((some c', td') :: tail), fun x => by simp [runsOf, hc]⟩

theorem segLoop_eq (rest : List (Option α × ℚ)) :
    ∀ st : Option (α × ℚ),
      segLoop st rest = (runsOf (stRows st ++ rest)).map fun r => tdSeconds r.2.sum := by
  induction rest with
  | nil =>
    intro st
    cases st with
    | none => rfl
    | some p => simp [segLoop, stRows, runsOf]
  | cons head tail ih =>
    intro st
    obtain ⟨copt, td⟩ := head
    cases copt with
    | none =>
      cases st with
      | none => simpa [segLoop, stRows, runsOf] using ih none
      | some p => simp [segLoop, stRows, runsOf, ih none]
    | some c =>
      cases st with
      | none => simpa [segLoop, stRows] using ih (some (c, td))
      | some p =>
        obtain ⟨c₀, s⟩ := p
        by_cases hc : c₀ = c
        · subst hc
          obtain ⟨T, R, hTR⟩ := runsOf_cons_some c₀ tail
          simp [segLoop, stRows, ih (some (c₀, s + td)), runsOf, hTR td, hTR (s + td),
            add_assoc]
        · simp [segLoop, stRows, hc, ih (some (c, td)), runsOf, Ne.symm hc]

theorem waittimeList_eq (rows : List (Option α × ℚ)) (h : ∃ r ∈ rows, r.1 ≠ none) :
    waittimeList rows = (runsOf rows).map fun r => tdSeconds r.2.sum := by
  induction rows with
  | nil => simp at h
  | cons head tail ih =>
    obtain ⟨copt, td⟩ := head
    cases copt with
    | none =>
      have h' : ∃ r ∈ tail, r.1 ≠ none := by
        obtain ⟨r, hr, hne⟩ := h
        rcases List.mem_cons.mp hr with hr | hr
        · subst hr; simp at hne
        · exact ⟨r, hr, hne⟩
      simp [waittimeList, runsOf, ih h']
    | some c => simpa [waittimeList, stRows] using segLoop_eq tail (some (c, td))

theorem runsOf_bind (rows : List (Option α × ℚ)) :
    (runsOf rows).flatMap (fun r => r.2) = (rows.filter fun r => r.1.isSome).map Prod.snd := by
  induction rows with
  | nil => rfl
  | cons head tail ih =>
    obtain ⟨copt, td⟩ := head
    cases copt with
    | none => simpa [runsOf] using ih
    | some c =>
      cases tail with
      | nil => simp [runsOf]
      | cons head' tail' =>
        obtain ⟨copt', td'⟩ := head'
        cases copt' with
        | none => simpa [runsOf] using ih
        | some c' =>
          by_cases hc : c = c'
          · subst hc
            obtain ⟨T, R, hTR⟩ := runsOf_cons_some c tail'
            rw [hTR td'] at ih
            simp [runsOf, hTR td']
            simpa using ih
          · simpa [runsOf, hc] using ih

theorem runsOf_sum (rows : List (Option α × ℚ)) :
    ((runsOf rows).map fun r => r.2.sum).sum
      = ((rows.filter fun r => r.1.isSome).map Prod.snd).sum := by
  rw [← runsOf_bind rows]
  induction runsOf rows with
  | nil => rfl
  | cons r rs ih => simp [ih]

theorem runsOf_filter_sum (rows : List (Option α × ℚ)) (c : α) :
    (((runsOf rows).filter fun r => r.1 = c).map fun r => r.2.sum).sum
      = ((rows.filter fun row => row.1 = some c).map Prod.snd).sum := by
  induction rows with
  | nil => rfl
  | cons head tail ih =>
    obtain ⟨copt, td⟩ := head
    cases copt with
    | none => simpa [runsOf] using ih
    | some a =>
      cases tail with
      | nil => by_cases ha : a = c <;> simp [runsOf, List.filter_cons, ha]
      | cons head' tail' =>
        obtain ⟨copt', td'⟩ := head'
        cases copt' with
        | none =>
          have h1 : runsOf ((some a, td) :: (none, td') :: tail')
              = (a, [td]) :: runsOf ((none, td') :: tail') := by
            simp [runsOf]
          rw [h1]
          by_cases ha : a = c <;>
            simp [List.filter_cons, ha] at ih ⊢ <;> linarith [ih]
        | some a' =>
          by_cases hc : a = a'
          · subst hc
            obtain ⟨T, R, hTR⟩ := runsOf_cons_some a tail'
            have h1 : runsOf ((some a, td) :: (some a, td') :: tail')
                = (a, td :: td' :: T) :: R := by
              simp [runsOf, hTR td']
            rw [h1]
            rw [hTR td'] at ih
            by_cases ha : a = c <;>
              simp [List.filter_cons, ha] at ih ⊢ <;> linarith [ih]
          · have h1 : runsOf ((some a, td) :: (some a', td') :: tail')
                = (a, [td]) :: runsOf ((some a', td') :: tail') := by
              simp [runsOf, hc]
            rw [h1]
            by_cases ha : a = c <;>
              simp [List.filter_cons, ha] at ih ⊢ <;> linarith [ih]

theorem tdList_length (ts : List ℚ) : (tdList ts).length = ts.length := by
  simp [tdList]

omit [DecidableEq α] in
theorem mkRows_fst (data : List (ℚ × Option α)) :
    (mkRows data).map Prod.fst = data.map Prod.snd := by
  rw [mkRows, List.map_fst_zip]
  simp [tdList_length]

theorem cluster_wt_keys (rows : List (Option α × ℚ)) :
    (cluster_wt rows).map Prod.fst = (rows.filterMap Prod.fst).dedup := by
  simp [cluster_wt, List.map_map, Function.comp_def]

omit [DecidableEq α] in
theorem mem_filterMap_fst (rows : List (Option α × ℚ)) (c : α) :
    c ∈ rows.filterMap Prod.fst ↔ some c ∈ rows.map Prod.fst := by
  simp [List.mem_filterMap, List.mem_map]

omit [DecidableEq α] in
theorem exists_some_mkRows (data : List (ℚ × Option α))
    (hsome : ∃ r ∈ data, r.2 ≠ none) : ∃ r ∈ mkRows data, r.1 ≠ none := by
  obtain ⟨r, hr, hne⟩ := hsome
  obtain ⟨c, hc⟩ := Option.ne_none_iff_exists'.mp hne
  have h1 : some c ∈ (mkRows data).map Prod.fst := by
    rw [mkRows_fst]
    exact List.mem_map.mpr ⟨r, hr, hc⟩
  obtain ⟨row, hrow, hfst⟩ := List.mem_map.mp h1
  exact ⟨row, hrow, by simp [hfst]⟩

/-- Concrete scenario series: cluster column `[1, 1, absent, 2, 1, absent]`,
sampled every second. -/
def d1 : List (ℚ × Option ℤ) :=
  [(0, some 1), (1, some 1), (2, none), (3, some 2), (4, some 1), (5, none)]

/-- C1: for an ordered series with at least 2 observations and at least one
non-absent cluster, the waiting-time list returned by `wait_time` has
exactly one entry per visit run, in run order (each entry being the
truncated sum of the run's per-observation time weights), and the
dwell-time table has exactly one entry per distinct non-absent cluster id,
merging all of that cluster's runs. -/
theorem wait_time_run_structure (data : List (ℚ × Option α))
    (h2 : 2 ≤ data.length) (hsome : ∃ r ∈ data, r.2 ≠ none) :
    (wait_time data).1 = (runsOf (mkRows data)).map (fun r => tdSeconds r.2.sum) ∧
    ((wait_time data).2.map Prod.fst).Nodup ∧
    (∀ c : α, c ∈ (wait_time data).2.map Prod.fst ↔ some c ∈ data.map Prod.snd) ∧
    (∀ kv ∈ (wait_time data).2,
      kv.2 = tdSeconds ((((runsOf (mkRows data)).filter fun r => r.1 = kv.1).map
        fun r => r.2.sum).sum)) := by
  have hlen : ¬ data.length ≤ 1 := by omega
  have hrows := exists_some_mkRows data hsome
  refine ⟨?_, ?_, ?_, ?_⟩
  · rw [wait_time, if_neg hlen]
    exact waittimeList_eq _ hrows
  · rw [wait_time, if_neg hlen]
    simpa [cluster_wt_keys] using List.nodup_dedup _
  · intro c
    rw [wait_time, if_neg hlen]
    show c ∈ (cluster_wt (mkRows data)).map Prod.fst ↔ _
    rw [cluster_wt_keys, List.mem_dedup, mem_filterMap_fst, mkRows_fst]
  · intro kv hkv
    rw [wait_time, if_neg hlen] at hkv
    obtain ⟨c, _hc, hkv2⟩ := List.mem_map.mp hkv
    rw [← hkv2]
    simpa using congrArg tdSeconds (runsOf_filter_sum (mkRows data) c).symm

/-- C1 witness: the scenario series `d1` meets the hypotheses, its
waiting-time list is the run decomposition, and it has exactly 3 entries
(runs `1,1`, `2`, `1`). -/
theorem wait_time_run_structure_witness :
    (2 ≤ d1.length ∧ ∃ r ∈ d1, r.2 ≠ none) ∧
    (wait_time d1).1 = (runsOf (mkRows d1)).map (fun r => tdSeconds r.2.sum) ∧
    (wait_time d1).1.length = 3 :=
  ⟨⟨by decide, by decide⟩,
   (wait_time_run_structure d1 (by decide) (by decide)).1,
   by with_unfolding_all decide⟩

/-- All-absent length-2 series, evenly sampled 60 s apart. -/
def d4 : List (ℚ × Option ℤ) := [(0, none), (60, none)]

/-- C4 (evaluation at the failing input): on a 2-observation series whose
cluster column is entirely absent, `wait_time` returns `([0], {})` — a
one-entry waiting-time list holding a zero-duration placeholder — and not
the `([], {})` the specification promises.  After the skip loop runs off
the end, the source seeds `curr_c = [i]` with `i = len(data)`, and the
final `if len(curr_c) > 0` block appends the `.seconds` of an empty
selection's sum. -/
theorem wait_time_all_absent_placeholder : wait_time d4 = ([0], []) := by
  with_unfolding_all decide

/-- The scan loop of `num_trips`: `p` is the previous location; a
differing current location increments the count and becomes the new
previous location. -/
def countTrips (p : α) : List α → ℕ
  | [] => 0
  | c :: rest => if p = c then countTrips p rest else countTrips c rest + 1

/-- The function `num_trips(data, cluster_c)` of `location/features.py`:
drop the absent rows, return `NaN` (modelled `none`) if nothing is left,
else count the transitions between consecutive differing cluster ids. -/
def num_trips (data : List (Option α)) : Option ℕ :=
  match data.filterMap id with
  | [] => none
  | p :: rest => some (countTrips p rest)

theorem countTrips_destutter (l : List α) :
    ∀ p : α, countTrips p l = (List.destutter' (· ≠ ·) p l).length - 1 := by
  induction l with
  | nil => intro p; rfl
  | cons c rest ih =>
    intro p
    by_cases hp : p = c
    · rw [countTrips, if_pos hp, List.destutter', if_neg (by simpa using hp), ih p]
    · rw [countTrips, if_neg hp, List.destutter', if_pos (by simpa using hp)]
      have hne := List.destutter'_ne_nil (· ≠ ·) (a := c) (l := rest)
      have hpos : 0 < (List.destutter' (· ≠ ·) c rest).length :=
        List.length_pos.mpr hne
      rw [ih c]
      simp only [List.length_cons]
      omega

/-- C7: `num_trips` equals the number of cluster-to-cluster transitions
after dropping absent observations and collapsing consecutive equal
cluster ids; it is `NaN` exactly when no observation carries a cluster,
and `0` whenever the remaining cluster ids are all equal. -/
theorem num_trips_transitions (data : List (Option α)) :
    num_trips data =
      if data.filterMap id = [] then none
      else some (((data.filterMap id).destutter (· ≠ ·)).length - 1) := by
  cases h : data.filterMap id with
  | nil => simp [num_trips, h]
  | cons p rest =>
    simp [num_trips, h, List.destutter_cons', countTrips_destutter rest p]

/-- Python `max(column)` over a non-empty list of timestamps. -/
def listMax (l : List ℚ) : ℚ := l.foldl max (l.headD 0)

/-- Python `min(column)` over a non-empty list of timestamps. -/
def listMin (l : List ℚ) : ℚ := l.foldl min (l.headD 0)

/-- Total elapsed time as the derived features compute it:
`(max(time_col) - min(time_col)).seconds`. -/
def spanSeconds (ts : List ℚ) : ℕ := tdSeconds (listMax ts - listMin ts)

/-- The function `trans_time(...)` of `location/features.py`: `NaN`
(modelled `none`) when the waiting-time list is empty, else total elapsed
time (seconds component) minus the sum of the waiting-time list. -/
def trans_time (data : List (ℚ × Option α)) : Option ℤ :=
  if (wait_time data).1 = [] then none
  else some ((spanSeconds (data.map Prod.fst) : ℤ) - ((wait_time data).1.sum : ℤ))

theorem tdSeconds_lt (q : ℚ) : tdSeconds q < 86400 := by
  have h1 := Int.emod_lt_of_pos ⌊q⌋ (by norm_num : (0:ℤ) < 86400)
  have h2 := Int.emod_nonneg ⌊q⌋ (by norm_num : (86400:ℤ) ≠ 0)
  unfold tdSeconds
  omega

theorem segLoop_mem_lt (rest : List (Option α × ℚ)) :
    ∀ st x, x ∈ segLoop st rest → x < 86400 := by
  induction rest with
  | nil =>
    intro st x hx
    cases st with
    | none => simp [segLoop] at hx
    | some p =>
      simp [segLoop] at hx
      simpa [hx] using tdSeconds_lt p.2
  | cons head tail ih =>
    intro st x hx
    obtain ⟨copt, td⟩ := head
    cases copt with
    | none =>
      cases st with
      | none => exact ih none x (by simpa [segLoop] using hx)
      | some p =>
        rw [segLoop] at hx
        rcases List.mem_cons.mp hx with hx | hx
        · simpa [hx] using tdSeconds_lt p.2
        · exact ih none x hx
    | some c =>
      cases st with
      | none => exact ih (some (c, td)) x (by simpa [segLoop] using hx)
      | some p =>
        rw [segLoop] at hx
        by_cases hc : p.1 = c
        · rw [if_pos hc] at hx
          exact ih (some (p.1, p.2 + td)) x hx
        · rw [if_neg hc] at hx
          rcases List.mem_cons.mp hx with hx | hx
          · simpa [hx] using tdSeconds_lt p.2
          · exact ih (some (c, td)) x hx

theorem waittimeList_mem_lt (rows : List (Option α × ℚ)) :
    ∀ x ∈ waittimeList rows, x < 86400 := by
  induction rows with
  | nil =>
    intro x hx
    simp [waittimeList] at hx
    simpa [hx] using tdSeconds_lt 0
  | cons head tail ih =>
    intro x hx
    obtain ⟨copt, td⟩ := head
    cases copt with
    | none => exact ih x (by simpa [waittimeList] using hx)
    | some c => exact segLoop_mem_lt tail (some (c, td)) x (by simpa [waittimeList] using hx)

theorem cluster_wt_mem_lt (rows : List (Option α × ℚ)) :
    ∀ kv ∈ cluster_wt rows, kv.2 < 86400 := by
  intro kv hkv
  obtain ⟨c, _, hc⟩ := List.mem_map.mp hkv
  rw [← hc]
  exact tdSeconds_lt _

/-- Single-cluster series whose only visit lasts 90000 s — more than one
day. -/
def d10 : List (ℚ × Option ℤ) := [(0, some 1), (90000, some 1)]

/-- C10: every duration the pipeline produces — waiting-time entries,
dwell-table values, and the total elapsed time used by `entropy` and
`trans_time` — is the seconds component of a time difference, hence an
integer in `[0, 86400)`; a span of one day or longer is reported modulo
86400 s, as the 90000-second visit of `d10` (reported as 3600 s, with a
transition time of 0) shows. -/
theorem durations_are_seconds_components :
    (∀ data : List (ℚ × Option α),
      (∀ w ∈ (wait_time data).1, w < 86400) ∧
      (∀ kv ∈ (wait_time data).2, kv.2 < 86400) ∧
      spanSeconds (data.map Prod.fst) < 86400) ∧
    wait_time d10 = ([3600], [(1, 3600)]) ∧
    spanSeconds (d10.map Prod.fst) = 3600 ∧
    trans_time d10 = some 0 := by
  refine ⟨fun data => ⟨?_, ?_, tdSeconds_lt _⟩, ?_, ?_, ?_⟩
  · intro w hw
    rw [wait_time] at hw
    by_cases hlen : data.length ≤ 1
    · rw [if_pos hlen] at hw; simp at hw
    · rw [if_neg hlen] at hw
      exact waittimeList_mem_lt (mkRows data) w hw
  · intro kv hkv
    rw [wait_time] at hkv
    by_cases hlen : data.length ≤ 1
    · rw [if_pos hlen] at hkv; simp at hkv
    · rw [if_neg hlen] at hkv
      exact cluster_wt_mem_lt (mkRows data) kv hkv
  · with_unfolding_all decide
  · with_unfolding_all decide
  · with_unfolding_all decide

/-- Pairwise application of the distance primitive to consecutive
coordinates (`for i in range(1, len(loc_list))` in `displacement`). -/
def pairwiseDists (dist : (ℚ × ℚ) → (ℚ × ℚ) → ℝ) : List (ℚ × ℚ) → List ℝ
  | a :: b :: rest => dist a b :: pairwiseDists dist (b :: rest)
  | _ => []

/-- The run-splitting loop of `displacement`
(`location/location_features.py`, `cluster_mapping is None` branch):
accumulate the current run's raw coordinates; at a cluster change emit
the centroid of the finished run and restart; after the loop emit the
centroid of the last run. -/
def dispGo (center : List (ℚ × ℚ) → ℚ × ℚ) :
    α → List (ℚ × ℚ) → List (α × (ℚ × ℚ)) → List (ℚ × ℚ)
  | _, run, [] => [center run]
  | c, run, (c', x) :: rest =>
      if c' ≠ c then center run :: dispGo center c' [x] rest
      else dispGo center c (run ++ [x]) rest

/-- Rows surviving `data.loc[~pd.isnull(data[cluster])]` in
`displacement`: each kept row is its cluster id with its raw
coordinate. -/
def dropAbsent {β : Type*} (data : List (Option α × β)) : List (α × β) :=
  data.filterMap fun r => r.1.map fun c => (c, r.2)

/-- The function `displacement(...)` of `location/location_features.py`
with `cluster_mapping=None`: drop the absent rows; with 1 remaining row
or fewer return `[]`; otherwise split into consecutive same-cluster runs,
represent each run by the centroid of its raw coordinates, and return
the distances between consecutive representatives (empty when fewer than
2 representatives result).  The distance and centroid primitives
(`vincenty`, `motif.get_geo_center`) are external collaborators passed
as parameters. -/
def displacement (dist : (ℚ × ℚ) → (ℚ × ℚ) → ℝ) (center : List (ℚ × ℚ) → ℚ × ℚ)
    (data : List (Option α × (ℚ × ℚ))) : List ℝ :=
  match dropAbsent data with
  | [] => []
  | [_] => []
  | (c, x) :: row :: rest =>
      let locList := dispGo center c [x] (row :: rest)
      if locList.length ≤ 1 then [] else pairwiseDists dist locList

/-- Consecutive same-cluster runs of an absent-free row list, each run
keeping its raw coordinates in order — the specification-side notion for
the Displacement Extractor. -/
def runsBy {β : Type*} : List (α × β) → List (α × List β)
  | [] => []
  | [(c, x)] => [(c, [x])]
  | (c, x) :: (c', y) :: rest =>
      if c = c' then
        match runsBy ((c', y) :: rest) with
        | (_, xs) :: rs => (c, x :: xs) :: rs
        | [] => [(c, [x])]
      else (c, [x]) :: runsBy ((c', y) :: rest)

theorem runsBy_cons {β : Type*} (c : α) (rest : List (α × β)) :
    ∃ T R, ∀ x, runsBy ((c, x) :: rest) = (c, x :: T) :: R := by
  induction rest generalizing c with
  | nil => exact ⟨[], [], fun x => rfl⟩
  | cons head tail ih =>
    obtain ⟨c', y⟩ := head
    by_cases hc : c = c'
    · subst hc
      obtain ⟨T, R, h⟩ := ih c
      exact ⟨y :: T, R, fun x => by simp [runsBy, h y]⟩
    · exact ⟨[], runsBy ((c', y) :: tail), fun x => by simp [runsBy, hc]⟩

theorem dispGo_eq (center : List (ℚ × ℚ) → ℚ × ℚ) (rest : List (α × (ℚ × ℚ))) :
    ∀ (c : α) (pre : List (ℚ × ℚ)) (x : ℚ × ℚ) T R,
      runsBy ((c, x) :: rest) = (c, x :: T) :: R →
      dispGo center c pre rest = center (pre ++ T) :: R.map (fun r => center r.2) := by
  induction rest with
  | nil =>
    intro c pre x T R h
    simp [runsBy] at h
    obtain ⟨hT, hR⟩ := h
    simp [dispGo, hT, hR]
  | cons head tail ih =>
    obtain ⟨c', y⟩ := head
    intro c pre x T R h
    by_cases hc : c = c'
    · subst hc
      obtain ⟨T', R', h'⟩ := runsBy_cons c tail
      rw [show runsBy ((c, x) :: (c, y) :: tail) = (c, x :: y :: T') :: R' by
        simp [runsBy, h' y]] at h
      obtain ⟨hT, hR⟩ : x :: T = x :: y :: T' ∧ R = R' := by
        constructor
        · exact (congrArg Prod.snd (List.head_eq_of_cons_eq h)).symm
        · exact (List.tail_eq_of_cons_eq h).symm
      have hT2 : T = y :: T' := by simpa using hT
      rw [dispGo, if_neg (by simp)]
      rw [ih c (pre ++ [y]) y T' R' (h' y), hT2, hR]
      simp
    · obtain ⟨T'', R'', h''⟩ := runsBy_cons c' tail
      rw [show runsBy ((c, x) :: (c', y) :: tail) = (c, [x]) :: runsBy ((c', y) :: tail) by
        simp [runsBy, hc]] at h
      obtain ⟨hT, hR⟩ : x :: T = [x] ∧ R = runsBy ((c', y) :: tail) := by
        constructor
        · exact (congrArg Prod.snd (List.head_eq_of_cons_eq h)).symm
        · exact (List.tail_eq_of_cons_eq h).symm
      have hT2 : T = [] := by simpa using hT
      rw [dispGo, if_pos (by simpa using Ne.symm hc)]
      rw [ih c' [y] y T'' R'' (h'' y), hT2, hR, h'' y]
      simp

theorem pairwiseDists_length (dist : (ℚ × ℚ) → (ℚ × ℚ) → ℝ) :
    ∀ l, (pairwiseDists dist l).length = l.length - 1
  | [] => rfl
  | [_] => rfl
  | _ :: b :: rest => by
    rw [pairwiseDists, List.length_cons, pairwiseDists_length dist (b :: rest)]
    simp

theorem pairwiseDists_short (dist : (ℚ × ℚ) → (ℚ × ℚ) → ℝ) :
    ∀ l, l.length ≤ 1 → pairwiseDists dist l = []
  | [], _ => rfl
  | [_], _ => rfl
  | _ :: _ :: _, h => by simp at h

/-- C8: with no cluster→coordinate mapping supplied, `displacement` drops
the absent observations, forms one representative coordinate per
consecutive same-cluster run by applying the centroid primitive to that
run's raw coordinates, and returns the distance primitive applied
pairwise to consecutive representatives in run order; with fewer than 2
representatives the result is empty, and the output length is
`#runs - 1`. -/
theorem displacement_run_centroids (dist : (ℚ × ℚ) → (ℚ × ℚ) → ℝ)
    (center : List (ℚ × ℚ) → ℚ × ℚ) (data : List (Option α × (ℚ × ℚ))) :
    displacement dist center data
      = pairwiseDists dist ((runsBy (dropAbsent data)).map fun r => center r.2) ∧
    (displacement dist center data).length = (runsBy (dropAbsent data)).length - 1 := by
  have hmain : displacement dist center data
      = pairwiseDists dist ((runsBy (dropAbsent data)).map fun r => center r.2) := by
    rw [displacement]
    cases h : dropAbsent data with
    | nil => simp [runsBy, pairwiseDists]
    | cons hd tl =>
      obtain ⟨c, x⟩ := hd
      cases tl with
      | nil => simp [runsBy, pairwiseDists]
      | cons row rest =>
        obtain ⟨T, R, hTR⟩ := runsBy_cons c (row :: rest)
        have hgo := dispGo_eq center (row :: rest) c [x] x T R (hTR x)
        rw [hTR x]
        simp only [hgo, List.map_cons]
        by_cases hlen : ((center ([x] ++ T) :: R.map fun r => center r.2)).length ≤ 1
        · rw [if_pos hlen]
          rw [pairwiseDists_short dist _ (by simpa using hlen)]
        · rw [if_neg hlen]
          simp
  refine ⟨hmain, ?_⟩
  rw [hmain, pairwiseDists_length]
  simp

/-- Python `dict` lookup `m[k]`, as an association-list search; `none`
models a `KeyError`. -/
def dictGet {β : Type*} (m : List (α × β)) (k : α) : Option β :=
  (m.find? fun kv => kv.1 = k).map Prod.snd

/-- The function `home_stay(data, home_loc, ...)` of
`location/features.py`: `NaN` (modelled `.ok none`) when the home
cluster never occurs in the cluster column; otherwise compute
`wait_time` and return `NaN` when the waiting-time list is empty, else
the dwell-table entry `cwt[home_loc]` (whose absence would raise
`KeyError`, modelled `.error`). -/
def home_stay (data : List (ℚ × Option α)) (home : α) : Except Unit (Option ℕ) :=
  if some home ∈ data.map Prod.snd then
    if (wait_time data).1 = [] then .ok none
    else
      match dictGet (wait_time data).2 home with
      | some v => .ok (some v)
      | none => .error ()
  else .ok none

theorem dictGet_map_of_mem {β : Type*} (g : α → β) (c : α) :
    ∀ cs : List α, c ∈ cs → dictGet (cs.map fun x => (x, g x)) c = some (g c) := by
  intro cs
  induction cs with
  | nil => intro h; simp at h
  | cons a tail ih =>
    intro hc
    by_cases ha : a = c
    · subst ha
      simp [dictGet]
    · have hmem : c ∈ tail := by
        rcases List.mem_cons.mp hc with h | h
        · exact absurd h.symm ha
        · exact h
      simpa [dictGet, List.find?_cons, ha] using ih hmem

/-- C9: requesting `home_stay` for a cluster id that never occurs in the
series yields `NaN` — neither an exception nor `0`; when the home
cluster does occur and the waiting-time list is non-empty, the
dwell-time table value of that cluster is returned. -/
theorem home_stay_missing_or_table (data : List (ℚ × Option α)) (home : α) :
    (some home ∉ data.map Prod.snd → home_stay data home = .ok none) ∧
    (some home ∈ data.map Prod.snd → (wait_time data).1 ≠ [] →
      ∃ v, dictGet (wait_time data).2 home = some v ∧
        home_stay data home = .ok (some v)) := by
  constructor
  · intro h
    rw [home_stay, if_neg h]
  · intro hmem hwt
    have hlen : ¬ data.length ≤ 1 := by
      intro hle
      rw [wait_time, if_pos hle] at hwt
      exact hwt rfl
    have hkey : home ∈ ((mkRows data).filterMap Prod.fst).dedup := by
      rw [List.mem_dedup, mem_filterMap_fst, mkRows_fst]
      exact hmem
    have h2 : (wait_time data).2 = cluster_wt (mkRows data) := by
      rw [wait_time, if_neg hlen]
    have hval : dictGet (wait_time data).2 home
        = some (tdSeconds ((((mkRows data).filter
            fun row => row.1 = some home).map Prod.snd).sum)) := by
      rw [h2, cluster_wt]
      exact dictGet_map_of_mem _ home _ hkey
    refine ⟨_, hval, ?_⟩
    rw [home_stay, if_pos hmem, if_neg hwt, hval]

/-- Two-observation single-cluster series used by the C9 witness. -/
def d9 : List (ℚ × Option ℤ) := [(0, some 1), (60, some 1)]

/-- C9 witness: home cluster `7` never occurs in `d9`, so `home_stay`
returns `NaN`; home cluster `1` occurs with a non-empty waiting-time
list, so the dwell-table value is returned. -/
theorem home_stay_missing_or_table_witness :
    home_stay d9 (7 : ℤ) = .ok none ∧
    ∃ v, dictGet (wait_time d9).2 (1 : ℤ) = some v ∧
      home_stay d9 1 = .ok (some v) :=
  ⟨(home_stay_missing_or_table d9 7).1 (by decide),
   (home_stay_missing_or_table d9 1).2 (by decide) (by with_unfolding_all decide)⟩

theorem tdList_getD (ts : List ℚ) (i : ℕ) (hi : i < ts.length) :
    (tdList ts).getD i 0 = tdAt ts i := by
  have hlen : i < (tdList ts).length := by simpa [tdList_length]
  rw [List.getD_eq_getElem _ _ hlen]
  simp [tdList]

/-- Series with cluster column `[1, absent, 2]` at t = 0, 2, 3 s, used by
the C3 witness. -/
def d3 : List (ℚ × Option ℤ) := [(0, some 1), (2, none), (3, some 2)]

/-- C3: for a series of n ≥ 2 observations, `wait_time` attributes to
each interior observation the mean of its two adjacent gaps
`((t[i+1] - t[i]) + (t[i] - t[i-1])) / 2`, to the first observation
`(t[1] - t[0]) / 2`, and to the last observation
`(t[n-1] - t[n-2]) / 2`; every waiting-time entry is the truncated sum
of one run's weights, and every dwell-table value is the truncated sum
of its cluster's weights. -/
theorem td_weights (data : List (ℚ × Option α)) (h2 : 2 ≤ data.length)
    (hsome : ∃ r ∈ data, r.2 ≠ none) :
    ((tdList (data.map Prod.fst)).getD 0 0
        = ((data.map Prod.fst).getD 1 0 - (data.map Prod.fst).getD 0 0) / 2) ∧
    ((tdList (data.map Prod.fst)).getD (data.length - 1) 0
        = ((data.map Prod.fst).getD (data.length - 1) 0
            - (data.map Prod.fst).getD (data.length - 2) 0) / 2) ∧
    (∀ i, 0 < i → i < data.length - 1 →
      (tdList (data.map Prod.fst)).getD i 0
        = (((data.map Prod.fst).getD (i + 1) 0 - (data.map Prod.fst).getD i 0)
            + ((data.map Prod.fst).getD i 0 - (data.map Prod.fst).getD (i - 1) 0)) / 2) ∧
    (∀ w ∈ (wait_time data).1, ∃ r ∈ runsOf (mkRows data), w = tdSeconds r.2.sum) ∧
    (∀ kv ∈ (wait_time data).2,
      kv.2 = tdSeconds (((mkRows data).filter
        fun row => row.1 = some kv.1).map Prod.snd).sum) := by
  have hts : (data.map Prod.fst).length = data.length := List.length_map _ _
  have hlen : ¬ data.length ≤ 1 := by omega
  refine ⟨?_, ?_, ?_, ?_, ?_⟩
  · rw [tdList_getD _ 0 (by omega), tdAt, if_pos rfl]
  · rw [tdList_getD _ (data.length - 1) (by omega), tdAt, if_neg (by omega),
      if_pos (by omega), hts]
  · intro i h0 hlt
    rw [tdList_getD _ i (by omega), tdAt, if_neg (by omega), if_neg (by omega)]
  · intro w hw
    rw [wait_time, if_neg hlen] at hw
    rw [waittimeList_eq _ (exists_some_mkRows data hsome)] at hw
    obtain ⟨r, hr, hwr⟩ := List.mem_map.mp hw
    exact ⟨r, hr, hwr.symm⟩
  · intro kv hkv
    rw [wait_time, if_neg hlen] at hkv
    obtain ⟨c, _hc, hkv2⟩ := List.mem_map.mp hkv
    rw [← hkv2]

/-- C3 witness: the hypotheses hold for `d3`, and the first observation's
weight is half of the first gap. -/
theorem td_weights_witness :
    (2 ≤ d3.length ∧ ∃ r ∈ d3, r.2 ≠ none) ∧
    (tdList (d3.map Prod.fst)).getD 0 0
      = ((d3.map Prod.fst).getD 1 0 - (d3.map Prod.fst).getD 0 0) / 2 :=
  ⟨⟨by decide, by decide⟩, (td_weights d3 (by decide) (by decide)).1⟩

/-- Exact (unrounded) total dwell: the sum of the time weights of all
non-absent rows — the real-valued total both aggregations of `wait_time`
approximate. -/
def exactTotal (data : List (ℚ × Option α)) : ℚ :=
  (((mkRows data).filter fun r => r.1.isSome).map Prod.snd).sum

/-- Day-spanning series: cluster column `[1, 2, 1]` at t = 0, 100000,
200000 s. -/
def dCx : List (ℚ × Option ℤ) := [(0, some 1), (100000, some 2), (200000, some 1)]

set_option maxRecDepth 2000 in
/-- C2 counterexample: on `dCx` every time weight is a whole number of
seconds and the exact total dwell is 200000 s, yet the waiting-time list
sums to 113600 and the dwell-table values to 27200: the `.seconds`
wrap-around at one day takes both sides far outside whole-second
truncation of the exact total, and the two sides differ by 86400, so the
sums are not equal within integer-second rounding. -/
theorem wait_time_sum_mismatch :
    exactTotal dCx = 200000 ∧
    (wait_time dCx).1.sum = 113600 ∧
    ((wait_time dCx).2.map Prod.snd).sum = 27200 ∧
    ¬ (exactTotal dCx - ((wait_time dCx).1.length : ℚ) < ((wait_time dCx).1.sum : ℚ)) := by
  refine ⟨le_antisymm ?_ ?_, ?_, ?_, ?_⟩ <;> with_unfolding_all decide

theorem tdAt_nonneg (ts : List ℚ) (hs : ts.Pairwise (· < ·)) (h2 : 2 ≤ ts.length)
    (i : ℕ) (hi : i < ts.length) : 0 ≤ tdAt ts i := by
  have hget : ∀ (j k : ℕ) (hj : j < ts.length) (hk : k < ts.length), j < k →
      ts.getD j 0 < ts.getD k 0 := by
    intro j k hj hk hjk
    rw [List.getD_eq_getElem _ _ hj, List.getD_eq_getElem _ _ hk]
    exact List.pairwise_iff_get.mp hs ⟨j, hj⟩ ⟨k, hk⟩ hjk
  rw [tdAt]
  split_ifs with h0 hlast
  · have := hget 0 1 (by omega) (by omega) (by omega)
    linarith
  · have := hget (ts.length - 2) (ts.length - 1) (by omega) (by omega) (by omega)
    linarith
  · have ha := hget i (i + 1) (by omega) (by omega) (by omega)
    have hb := hget (i - 1) i (by omega) (by omega) (by omega)
    linarith

omit [DecidableEq α] in
theorem mkRows_td_nonneg (data : List (ℚ × Option α))
    (hs : (data.map Prod.fst).Pairwise (· < ·)) (h2 : 2 ≤ data.length) :
    ∀ r ∈ mkRows data, 0 ≤ r.2 := by
  intro r hr
  have hmem := (List.of_mem_zip hr).2
  rw [tdList] at hmem
  obtain ⟨i, hi, hTd⟩ := List.mem_map.mp hmem
  rw [List.mem_range] at hi
  rw [← hTd]
  exact tdAt_nonneg _ hs (by simpa using h2) i hi

theorem runsOf_ne_nil (rows : List (Option α × ℚ)) (h : ∃ r ∈ rows, r.1 ≠ none) :
    runsOf rows ≠ [] := by
  intro hempty
  obtain ⟨r, hr, hne⟩ := h
  have hmem : r.2 ∈ (runsOf rows).flatMap (fun x => x.2) := by
    rw [runsOf_bind]
    refine List.mem_map.mpr ⟨r, List.mem_filter.mpr ⟨hr, ?_⟩, rfl⟩
    simpa using Option.isSome_iff_ne_none.mpr hne
  rw [hempty] at hmem
  simp at hmem

theorem sum_map_ite {cs : List α} {a : α} (hnd : cs.Nodup) (ha : a ∈ cs)
    (g : α → ℚ) (y : ℚ) :
    (cs.map fun c => (if a = c then y else 0) + g c).sum = y + (cs.map g).sum := by
  induction cs with
  | nil => simp at ha
  | cons b tail ih =>
    rcases List.mem_cons.mp ha with hab | hmem
    · subst hab
      have hnotin : a ∉ tail := (List.nodup_cons.mp hnd).1
      have hz : ∀ c ∈ tail, (if a = c then y else 0) + g c = g c := by
        intro c hc
        rw [if_neg (by intro h; subst h; exact hnotin hc)]
        ring
      rw [List.map_cons, List.sum_cons, List.map_congr_left hz, if_pos rfl]
      simp only [List.map_cons, List.sum_cons]
      ring
    · have hb : a ≠ b := by
        rintro rfl
        exact (List.nodup_cons.mp hnd).1 hmem
      simp only [List.map_cons, List.sum_cons, if_neg hb]
      rw [ih (List.nodup_cons.mp hnd).2 hmem]
      ring

theorem sum_clusters_partition (rows : List (Option α × ℚ)) (cs : List α)
    (hnd : cs.Nodup) (hcov : ∀ c : α, some c ∈ rows.map Prod.fst → c ∈ cs) :
    (cs.map fun c => ((rows.filter fun row => row.1 = some c).map Prod.snd).sum).sum
      = ((rows.filter fun r => r.1.isSome).map Prod.snd).sum := by
  induction rows with
  | nil => simp
  | cons row rest ih =>
    have hcov' : ∀ c : α, some c ∈ rest.map Prod.fst → c ∈ cs := by
      intro c hc
      refine hcov c ?_
      rw [List.map_cons]
      exact List.mem_cons_of_mem _ hc
    obtain ⟨copt, y⟩ := row
    cases copt with
    | none => simpa [List.filter_cons] using ih hcov'
    | some a =>
      have ha : a ∈ cs := hcov a (by simp)
      have hstep : ∀ c ∈ cs,
          ((((some a, y) :: rest).filter fun row => row.1 = some c).map Prod.snd).sum
            = (if a = c then y else 0)
              + ((rest.filter fun row => row.1 = some c).map Prod.snd).sum := by
        intro c _
        by_cases hac : a = c <;> simp [List.filter_cons, hac]
      rw [List.map_congr_left hstep, sum_map_ite hnd ha _ y, ih hcov']
      simp [List.filter_cons]

theorem tdSeconds_cast_eq_floor {q : ℚ} (h0 : 0 ≤ q) (h1 : q < 86400) :
    (tdSeconds q : ℚ) = (⌊q⌋ : ℚ) := by
  have hf0 : 0 ≤ ⌊q⌋ := Int.floor_nonneg.mpr h0
  have hf1 : ⌊q⌋ < 86400 := Int.floor_lt.mpr (by exact_mod_cast h1)
  rw [tdSeconds, Int.emod_eq_of_lt hf0 hf1]
  exact_mod_cast congrArg (fun z : ℤ => (z : ℚ)) (Int.toNat_of_nonneg hf0)

theorem tdSeconds_sum_le (l : List ℚ) (h : ∀ x ∈ l, 0 ≤ x ∧ x < 86400) :
    (((l.map tdSeconds).sum : ℕ) : ℚ) ≤ l.sum := by
  induction l with
  | nil => simp
  | cons x rest ih =>
    have hx := h x (List.mem_cons_self x rest)
    have hcast := tdSeconds_cast_eq_floor hx.1 hx.2
    have hih := ih fun y hy => h y (List.mem_cons_of_mem _ hy)
    have hfl := Int.floor_le x
    simp only [List.map_cons, List.sum_cons]
    push_cast
    push_cast at hcast hih
    linarith

theorem tdSeconds_sum_gt (l : List ℚ) (h : ∀ x ∈ l, 0 ≤ x ∧ x < 86400)
    (hne : l ≠ []) :
    l.sum - l.length < (((l.map tdSeconds).sum : ℕ) : ℚ) := by
  induction l with
  | nil => exact absurd rfl hne
  | cons x rest ih =>
    have hx := h x (List.mem_cons_self x rest)
    have hcast := tdSeconds_cast_eq_floor hx.1 hx.2
    have hfg := Int.sub_one_lt_floor x
    simp only [List.map_cons, List.sum_cons, List.length_cons]
    rcases eq_or_ne rest [] with hr | hr
    · subst hr
      simp only [List.map_nil, List.sum_nil, List.length_nil]
      push_cast
      push_cast at hcast
      linarith
    · have hih := ih (fun y hy => h y (List.mem_cons_of_mem _ hy)) hr
      have hle : (((rest.map tdSeconds).sum : ℕ) : ℚ) ≤ rest.sum :=
        tdSeconds_sum_le rest fun y hy => h y (List.mem_cons_of_mem _ hy)
      push_cast
      push_cast at hcast hih
      linarith

/-- Series with cluster column `[1, 2, 1]` at t = 0, 60, 120 s, used by
the C2 witness. -/
def dW2 : List (ℚ × Option ℤ) := [(0, some 1), (60, some 2), (120, some 1)]

/-- C2, amended: provided the timestamps strictly increase and the exact
total dwell is below one day (so no `.seconds` wrap-around can occur),
the waiting-time list sum and the dwell-table value sum both equal the
exact total dwell up to whole-second truncation — each side lies less
than its own number of aggregation steps below the exact total — and
hence the two sides differ by less than the larger step count. -/
theorem wait_time_sums_close (data : List (ℚ × Option α))
    (h2 : 2 ≤ data.length) (hsome : ∃ r ∈ data, r.2 ≠ none)
    (hs : (data.map Prod.fst).Pairwise (· < ·))
    (htot : exactTotal data < 86400) :
    ((wait_time data).1.sum : ℚ) ≤ exactTotal data ∧
    exactTotal data - ((wait_time data).1.length : ℚ) < ((wait_time data).1.sum : ℚ) ∧
    ((((wait_time data).2.map Prod.snd).sum : ℕ) : ℚ) ≤ exactTotal data ∧
    exactTotal data - ((wait_time data).2.length : ℚ)
      < ((((wait_time data).2.map Prod.snd).sum : ℕ) : ℚ) ∧
    |((wait_time data).1.sum : ℚ) - ((((wait_time data).2.map Prod.snd).sum : ℕ) : ℚ)|
      < max ((wait_time data).1.length : ℚ) ((wait_time data).2.length : ℚ) := by
  have hlen : ¬ data.length ≤ 1 := by omega
  have hrows := exists_some_mkRows data hsome
  have hnn := mkRows_td_nonneg data hs h2
  -- waiting-time side
  have hwt : (wait_time data).1
      = ((runsOf (mkRows data)).map fun r => r.2.sum).map tdSeconds := by
    rw [wait_time, if_neg hlen]
    show waittimeList (mkRows data) = _
    rw [waittimeList_eq _ hrows, List.map_map]
    rfl
  have hL1nn : ∀ x ∈ (runsOf (mkRows data)).map (fun r => r.2.sum), 0 ≤ x := by
    intro x hx
    obtain ⟨r, hr, rfl⟩ := List.mem_map.mp hx
    refine List.sum_nonneg ?_
    intro y hy
    have hymem : y ∈ (runsOf (mkRows data)).flatMap fun r => r.2 :=
      List.mem_flatMap.mpr ⟨r, hr, hy⟩
    rw [runsOf_bind] at hymem
    obtain ⟨row, hrow, rfl⟩ := List.mem_map.mp hymem
    exact hnn row (List.mem_filter.mp hrow).1
  have hL1sum : ((runsOf (mkRows data)).map fun r => r.2.sum).sum = exactTotal data :=
    runsOf_sum (mkRows data)
  have hL1b : ∀ x ∈ (runsOf (mkRows data)).map (fun r => r.2.sum), 0 ≤ x ∧ x < 86400 := by
    intro x hx
    refine ⟨hL1nn x hx, ?_⟩
    have hle := List.single_le_sum hL1nn x hx
    rw [hL1sum] at hle
    linarith
  have hL1ne : ((runsOf (mkRows data)).map fun r => r.2.sum) ≠ [] := by
    intro hnil
    exact runsOf_ne_nil (mkRows data) hrows (by simpa using hnil)
  have hWle := tdSeconds_sum_le _ hL1b
  have hWgt := tdSeconds_sum_gt _ hL1b hL1ne
  rw [hL1sum] at hWle hWgt
  -- dwell-table side
  have hcov : ∀ c : α, some c ∈ (mkRows data).map Prod.fst →
      c ∈ ((mkRows data).filterMap Prod.fst).dedup := by
    intro c hc
    rw [List.mem_dedup, mem_filterMap_fst]
    exact hc
  have hcwt : (wait_time data).2 = cluster_wt (mkRows data) := by
    rw [wait_time, if_neg hlen]
  have hvals : (wait_time data).2.map Prod.snd
      = (((mkRows data).filterMap Prod.fst).dedup.map fun c =>
          (((mkRows data).filter fun row => row.1 = some c).map Prod.snd).sum).map
            tdSeconds := by
    rw [hcwt, cluster_wt, List.map_map, List.map_map]
    rfl
  have hL2nn : ∀ x ∈ ((mkRows data).filterMap Prod.fst).dedup.map (fun c =>
      (((mkRows data).filter fun row => row.1 = some c).map Prod.snd).sum), 0 ≤ x := by
    intro x hx
    obtain ⟨c, _, rfl⟩ := List.mem_map.mp hx
    refine List.sum_nonneg ?_
    intro y hy
    obtain ⟨row, hrow, rfl⟩ := List.mem_map.mp hy
    exact hnn row (List.mem_filter.mp hrow).1
  have hL2sum : (((mkRows data).filterMap Prod.fst).dedup.map fun c =>
      (((mkRows data).filter fun row => row.1 = some c).map Prod.snd).sum).sum
        = exactTotal data :=
    sum_clusters_partition (mkRows data) _ (List.nodup_dedup _) hcov
  have hL2b : ∀ x ∈ ((mkRows data).filterMap Prod.fst).dedup.map (fun c =>
      (((mkRows data).filter fun row => row.1 = some c).map Prod.snd).sum),
      0 ≤ x ∧ x < 86400 := by
    intro x hx
    refine ⟨hL2nn x hx, ?_⟩
    have hle := List.single_le_sum hL2nn x hx
    rw [hL2sum] at hle
    linarith
  have hL2ne : (((mkRows data).filterMap Prod.fst).dedup.map fun c =>
      (((mkRows data).filter fun row => row.1 = some c).map Prod.snd).sum) ≠ [] := by
    obtain ⟨r, hr, hne⟩ := hrows
    obtain ⟨c, hc⟩ := Option.ne_none_iff_exists'.mp hne
    have hmem : c ∈ ((mkRows data).filterMap Prod.fst).dedup :=
      hcov c (List.mem_map.mpr ⟨r, hr, hc⟩)
    intro hnil
    rw [List.map_eq_nil_iff] at hnil
    rw [hnil] at hmem
    simp at hmem
  have hDle := tdSeconds_sum_le _ hL2b
  have hDgt := tdSeconds_sum_gt _ hL2b hL2ne
  rw [hL2sum] at hDle hDgt
  simp only [List.length_map] at hWgt hDgt
  have hlen1 : (wait_time data).1.length = (runsOf (mkRows data)).length := by
    rw [hwt, List.length_map, List.length_map]
  have hlen2 : (wait_time data).2.length
      = ((mkRows data).filterMap Prod.fst).dedup.length := by
    rw [hcwt, cluster_wt, List.length_map]
  refine ⟨?_, ?_, ?_, ?_, ?_⟩
  · rw [hwt]
    exact hWle
  · rw [hlen1, hwt]
    exact hWgt
  · rw [hvals]
    exact hDle
  · rw [hlen2, hvals]
    exact hDgt
  · rw [hlen1, hlen2, hwt, hvals, abs_sub_lt_iff]
    have hmr : ((((mkRows data).filterMap Prod.fst).dedup.length : ℚ))
        ≤ max ((runsOf (mkRows data)).length : ℚ)
            (((mkRows data).filterMap Prod.fst).dedup.length : ℚ) := le_max_right _ _
    have hml : (((runsOf (mkRows data)).length : ℚ))
        ≤ max ((runsOf (mkRows data)).length : ℚ)
            (((mkRows data).filterMap Prod.fst).dedup.length : ℚ) := le_max_left _ _
    constructor
    · linarith
    · linarith

/-- C2 witness: the series `dW2` (three 60-second-spaced observations,
clusters `1, 2, 1`) satisfies the amended hypotheses, and the two sums
differ by less than the larger aggregation step count. -/
theorem wait_time_sums_close_witness :
    (2 ≤ dW2.length ∧ (∃ r ∈ dW2, r.2 ≠ none) ∧
      (dW2.map Prod.fst).Pairwise (· < ·) ∧ exactTotal dW2 < 86400) ∧
    |((wait_time dW2).1.sum : ℚ) - ((((wait_time dW2).2.map Prod.snd).sum : ℕ) : ℚ)|
      < max ((wait_time dW2).1.length : ℚ) ((wait_time dW2).2.length : ℚ) :=
  ⟨⟨by decide, by decide, by with_unfolding_all decide, by with_unfolding_all decide⟩,
   (wait_time_sums_close dW2 (by decide) (by decide) (by with_unfolding_all decide)
     (by with_unfolding_all decide)).2.2.2.2⟩

/-- The function `entropy(data, cluster_c, time_c, wait_time_v)` of
`location/features.py`, returning the pair (entropy, normalised
entropy).  `NaN` results are `none`; a raised exception is `.error`:
`cwt[k] / total_time` raises `ZeroDivisionError` when the elapsed time
is zero and `math.log(p)` raises `ValueError` when `p ≤ 0`, which
together amount to the guard `p ≤ 0` on each proportion; `math.log(n)`
on `n = 0` distinct clusters likewise raises. -/
noncomputable def entropy (data : List (ℚ × Option α)) :
    Except Unit (Option ℝ × Option ℝ) :=
  if data.length = 0 then .ok (none, none)
  else if (wait_time data).1 = [] then .ok (none, none)
  else if ((wait_time data).2.any fun kv =>
      decide ((kv.2 : ℚ) / (spanSeconds (data.map Prod.fst) : ℚ) ≤ 0)) then .error ()
  else
    let ent : ℝ := -(((wait_time data).2.map fun kv =>
      ((kv.2 : ℝ) / (spanSeconds (data.map Prod.fst) : ℝ))
        * Real.log ((kv.2 : ℝ) / (spanSeconds (data.map Prod.fst) : ℝ))).sum)
    let n := (data.filterMap Prod.snd).dedup.length
    if n = 1 then .ok (some ent, none)
    else if n = 0 then .error ()
    else .ok (some ent, some (ent / Real.log (n : ℝ)))

/-- Series with cluster column `[1, 2, absent]` at t = 0, 2, 3 s. -/
def d5 : List (ℚ × Option ℤ) := [(0, some 1), (2, some 2), (3, none)]

/-- Well-formed two-point series, 1 second apart, two clusters: both
truncated dwell times are 0. -/
def d6 : List (ℚ × Option ℤ) := [(0, some 1), (1, some 2)]

/-- C5 (evaluation at the failing input): on `d5` the entropy is
(2/3)·ln 3 and there are exactly two distinct clusters, so the
normalised entropy is defined and equals (2/3)·ln 3 / ln 2 ≈ 1.057 > 1,
outside [0, 1].  The proportions `cwt[k] / total_time` do not sum to 1 —
the elapsed-time denominator includes time attributed to the absent
sample and each dwell is truncated — so the computed entropy can exceed
ln(#clusters), contradicting the docstring's claim that the value is
scaled to [0, 1]. -/
theorem norm_entropy_exceeds_one :
    entropy d5 = .ok (some ((2 / 3) * Real.log 3),
      some ((2 / 3) * Real.log 3 / Real.log 2)) ∧
    1 < (2 / 3) * Real.log 3 / Real.log 2 := by
  constructor
  · have hw : wait_time d5 = ([1, 1], [(1, 1), (2, 1)]) := by with_unfolding_all decide
    have hsp : spanSeconds (d5.map Prod.fst) = 3 := by with_unfolding_all decide
    have hn : (d5.filterMap Prod.snd).dedup = [1, 2] := by decide
    simp only [entropy, hw, hsp, hn]
    norm_num [d5]
    have he : -((1:ℝ) / 3 * Real.log (1 / 3)) + -(1 / 3 * Real.log (1 / 3))
        = 2 / 3 * Real.log 3 := by
      rw [show ((1:ℝ)/3) = (3:ℝ)⁻¹ by norm_num, Real.log_inv]
      ring
    rw [if_neg (show ¬ ([1, 1] : List ℕ) = [] by simp), he]
  · have hl2 : 0 < Real.log 2 := Real.log_pos (by norm_num)
    rw [one_lt_div hl2]
    have h89 : Real.log 8 < Real.log 9 := Real.log_lt_log (by norm_num) (by norm_num)
    have h8 : Real.log 8 = 3 * Real.log 2 := by
      rw [show (8:ℝ) = 2 ^ 3 by norm_num, Real.log_pow]
      push_cast
      ring
    have h9 : Real.log 9 = 2 * Real.log 3 := by
      rw [show (9:ℝ) = 3 ^ 2 by norm_num, Real.log_pow]
      push_cast
      ring
    linarith

/-- C6 (evaluation at the failing input): on the well-formed degenerate
series `d6` — strictly increasing timestamps one second apart, two
clusters, so both truncated dwell times are 0 — `entropy` evaluates
`math.log(0)` and raises `ValueError` instead of returning a numeric
value or the `NaN` sentinel its docstring promises. -/
theorem entropy_raises_on_zero_dwell : entropy d6 = .error () := by
  have hw : wait_time d6 = ([0, 0], [(1, 0), (2, 0)]) := by with_unfolding_all decide
  have hsp : spanSeconds (d6.map Prod.fst) = 1 := by with_unfolding_all decide
  simp only [entropy, hw, hsp]
  norm_num [d6]
  intro h
  simp at h

end LocRepo
